import Mathlib

/-!
Verification development for the Sudoku terminal game (`sudoku.py`).

The engine part of the program is embedded shallowly:

* grids (`List[List[int]]` of digits, 0 = empty) become total functions
  `Pos → Nat` over `Pos := Fin 9 × Fin 9`; Python's in-place cell update
  `grid[r][c] = n` becomes the functional override `gset`;
* the two backtracking searches (`solve` and the inner `dfs` of
  `unique_solution`) recurse on an explicit fuel argument (the recursion
  depth is bounded by the number of empty cells, which is at most 81, so
  fuel 82 is always sufficient; this is proved below rather than assumed);
* `random.sample(range(1,10), 9)` inside `solve(..., fill=True)` is
  modelled by a stream `st : Nat → List Nat` of candidate orders together
  with a counter `k` that advances by one each time a sample is drawn;
  `random.shuffle(cells)` in `generate_sudoku` is modelled by an explicit
  visiting order `order : List Pos`;
* the mutable session (`SudokuState`, `Game`, and the key branches of
  `Game.game_loop`) becomes explicit state passing; Python's
  `list.append` / `pop(0)` / `pop()` on the undo stack become
  `++ [·]` / `tail` / `getLast?` + `dropLast`.
-/

abbrev Pos := Fin 9 × Fin 9

abbrev Grid := Pos → Nat

def emptyGrid : Grid := fun _ => 0

/-- In-place update `grid[r][c] = n` of the Python list-of-lists grid. -/
def gset (g : Grid) (p : Pos) (n : Nat) : Grid :=
  fun q => if q = p then n else g q

/-- `range(1, 10)`, the candidate digits tried by the searches. -/
def digits19 : List Nat := [1, 2, 3, 4, 5, 6, 7, 8, 9]

/-- The position `(3*(r//3) + i, ·)` used by the box scan of `valid`. -/
def boxPos (r : Fin 9) (i : Fin 3) : Fin 9 :=
  ⟨3 * ((r : Nat) / 3) + (i : Nat), by omega⟩

/--
`valid(grid, r, c, n)` from the source: scans the whole row `r`, the whole
column `c`, and the contiguous 3×3 box with corner `(3*(r//3), 3*(c//3))`,
returning `False` as soon as it sees the digit `n`.
-/
def valid (g : Grid) (r c : Fin 9) (n : Nat) : Bool :=
  ((List.finRange 9).all fun i => !(g (r, i) == n) && !(g (i, c) == n)) &&
  ((List.finRange 3).all fun i =>
    (List.finRange 3).all fun j => !(g (boxPos r i, boxPos c j) == n))

/-- All 81 positions in row-major order (`for r in range(9): for c in range(9)`). -/
def allPos : List Pos :=
  (List.finRange 9).flatMap fun r => (List.finRange 9).map fun c => (r, c)

/-- The first empty cell in row-major order, the cell the searches branch on. -/
def firstEmpty (g : Grid) : Option Pos :=
  allPos.find? fun p => g p == 0

/-- Number of empty cells of a grid; the recursion measure of the searches. -/
def zeroCount (g : Grid) : Nat :=
  (Finset.univ.filter fun p : Pos => g p = 0).card

/-- Number of filled (nonzero) cells of a grid — the clue count of a puzzle. -/
def clueCount (g : Grid) : Nat :=
  (Finset.univ.filter fun p : Pos => g p ≠ 0).card

/--
The candidate loop of `solve`: `for n in cands: if valid(...): place, recurse,
and on failure reset the cell to 0 and keep trying`.  `rec` is the recursive
call to `solve` one level down; the stream counter `k` is threaded through it.
-/
def solveLoop (rec : Grid → Nat → Bool × Grid × Nat) (g : Grid) (r c : Fin 9)
    (k : Nat) : List Nat → Bool × Grid × Nat
  | [] => (false, g, k)
  | n :: rest =>
    if valid g r c n then
      match rec (gset g (r, c) n) k with
      | (true, g1, k1) => (true, g1, k1)
      | (false, g1, k1) => solveLoop rec (gset g1 (r, c) 0) r c k1 rest
    else solveLoop rec g r c k rest

/--
`solve(grid, fill)` with explicit fuel.  At the first empty cell it draws the
candidate order: `random.sample(range(1,10), 9)` (the next stream element)
when `fill=True`, the fixed `range(1,10)` when `fill=False`.  When no empty
cell remains it succeeds.  Fuel 0 is never reached from the top-level wrapper
(proved below); that branch mirrors the failure result shape.
-/
def solveF (fill : Bool) (st : Nat → List Nat) :
    Nat → Grid → Nat → Bool × Grid × Nat
  | 0, g, k => (false, g, k)
  | fuel + 1, g, k =>
    match firstEmpty g with
    | none => (true, g, k)
    | some (r, c) =>
      let cands := if fill then st k else digits19
      let k1 := if fill then k + 1 else k
      solveLoop (fun g2 k2 => solveF fill st fuel g2 k2) g r c k1 cands

/-- `solve(grid, fill=False by default)`; 82 units of fuel always suffice. -/
def solve (g : Grid) (fill : Bool := false)
    (st : Nat → List Nat := fun _ => digits19) (k : Nat := 0) :
    Bool × Grid × Nat :=
  solveF fill st 82 g k

/--
The candidate loop of `dfs` inside `unique_solution`: unlike `solve` it never
stops early — after each recursive return it resets the cell and continues
with the next digit.  It threads the solution counter `solutions[0]`.
-/
def dfsLoop (rec : Grid → Nat → Nat × Grid) (g : Grid) (r c : Fin 9)
    (cnt : Nat) : List Nat → Nat × Grid
  | [] => (cnt, g)
  | n :: rest =>
    if valid g r c n then
      match rec (gset g (r, c) n) cnt with
      | (cnt1, g1) => dfsLoop rec (gset g1 (r, c) 0) r c cnt1 rest
    else dfsLoop rec g r c cnt rest

/--
`dfs()` inside `unique_solution`: at the first empty cell it tries every
digit 1–9 and returns; with no empty cell left it increments the counter.
-/
def dfsF : Nat → Grid → Nat → Nat × Grid
  | 0, g, cnt => (cnt, g)
  | fuel + 1, g, cnt =>
    match firstEmpty g with
    | none => (cnt + 1, g)
    | some (r, c) => dfsLoop (fun g2 c2 => dfsF fuel g2 c2) g r c cnt digits19

/-- `unique_solution(grid)`: run `dfs` with counter 0, report `counter == 1`. -/
def unique_solution (g : Grid) : Bool :=
  (dfsF 82 g 0).1 == 1

/--
The removal loop of `generate_sudoku`: walk the shuffled coordinates, break
once `removed >= 81 - num_clues`, tentatively zero the cell (the copy
`grid2` of the mutated grid is the same value here), keep the removal if
`unique_solution` holds and otherwise restore the backup.  Returns the final
grid together with `removed`.
-/
def removeCells (num_clues : Nat) : List Pos → Grid → Nat → Grid × Nat
  | [], g, removed => (g, removed)
  | p :: rest, g, removed =>
    if 81 - num_clues ≤ removed then (g, removed)
    else
      let backup := g p
      let g1 := gset g p 0
      if unique_solution g1 then removeCells num_clues rest g1 (removed + 1)
      else removeCells num_clues rest (gset g1 p backup) removed

/--
`generate_sudoku(num_clues=35)`: solve the empty grid in fill mode (the
result is the Solution), then remove cells in the shuffled order while
uniqueness persists, and return the pair `(puzzle, sol)`.
-/
def generate_sudoku (st : Nat → List Nat) (order : List Pos)
    (num_clues : Nat := 35) : Grid × Grid :=
  let g := (solveF true st 82 emptyGrid 0).2.1
  let sol := g
  let puzzle := (removeCells num_clues order g 0).1
  (puzzle, sol)

/-- The `removed` counter of `generate_sudoku` at the moment it returns. -/
def generate_removed (st : Nat → List Nat) (order : List Pos)
    (num_clues : Nat := 35) : Nat :=
  (removeCells num_clues order (solveF true st 82 emptyGrid 0).2.1 0).2

example : valid emptyGrid 0 0 5 = true := by decide
example : valid (gset emptyGrid (0, 0) 5) 0 0 5 = false := by decide
example : valid (gset emptyGrid (0, 3) 5) 0 0 5 = false := by decide
example : valid (gset emptyGrid (1, 1) 5) 0 0 5 = false := by decide
example : valid (gset emptyGrid (3, 0) 5) 0 0 5 = false := by decide
example : valid (gset emptyGrid (3, 3) 5) 0 0 5 = true := by decide
/-- A concrete fully solved grid (the classic shift pattern), used as a
search witness: row `r` is the sequence `1..9` rotated by `3*(r%3) + r/3`. -/
def knownSol : Grid :=
  fun p => (3 * ((p.1 : Nat) % 3) + (p.1 : Nat) / 3 + (p.2 : Nat)) % 9 + 1

example : firstEmpty emptyGrid = some (0, 0) := by decide
example : firstEmpty knownSol = none := by decide
example : unique_solution knownSol = true := by decide

/-- A session cell: `value` (0 = empty), `fixed` (pre-filled by the puzzle),
`pencil` (pending hint digit). -/
structure Cell where
  value : Nat := 0
  fixed : Bool := false
  pencil : Nat := 0
deriving DecidableEq

/-- `SudokuState`: the 9×9 cell grid, the originating puzzle, the paired
solution, the move counter, and the start-time anchor (a float in the
source, carried opaquely here — no claim computes with it). -/
structure SudokuState where
  grid : Pos → Cell := fun _ => {}
  puzzle : Grid := emptyGrid
  solution : Grid := emptyGrid
  moves : Nat := 0
  start_time : Nat := 0

/-- `SudokuState.clone`: field-by-field deep copy (each cell rebuilt, each
row of `puzzle`/`solution` copied, counters copied). -/
def SudokuState.clone (s : SudokuState) : SudokuState where
  grid := fun p => ⟨(s.grid p).value, (s.grid p).fixed, (s.grid p).pencil⟩
  puzzle := fun p => s.puzzle p
  solution := fun p => s.solution p
  moves := s.moves
  start_time := s.start_time

theorem SudokuState.clone_eq (s : SudokuState) : s.clone = s := rfl

/-- The parts of the `Game` object the engine claims are about: the live
state and the undo stack (the curses screen, settings, and UI are
presentation-layer collaborators and carry no engine state). -/
structure Game where
  state : SudokuState
  undo_stack : List SudokuState := []

/-- `Game.push_undo`: append a clone of the live state; if the stack then
holds more than 200 snapshots, `pop(0)` evicts the oldest. -/
def Game.push_undo (gm : Game) : Game :=
  let stack := gm.undo_stack ++ [gm.state.clone]
  { gm with undo_stack := if 200 < stack.length then stack.tail else stack }

/-- `Game.undo`: if the stack is nonempty, `pop()` the most recent snapshot
and make it the live state; otherwise do nothing. -/
def Game.undo (gm : Game) : Game :=
  match gm.undo_stack.getLast? with
  | none => gm
  | some s => { state := s, undo_stack := gm.undo_stack.dropLast }

/-- The digit-entry branch of `game_loop` (`'1' <= ch <= '9'`): on a
non-fixed cell, push an undo snapshot, set the value, clear the pencil,
and count the move. -/
def placeCmd (gm : Game) (p : Pos) (d : Nat) : Game :=
  let cell := gm.state.grid p
  if cell.fixed then gm
  else
    let gm1 := gm.push_undo
    { gm1 with
      state :=
        { gm1.state with
          grid := fun q => if q = p then { cell with value := d, pencil := 0 }
                           else gm1.state.grid q
          moves := gm1.state.moves + 1 } }

/-- The clear branch of `game_loop` (Backspace / `0`): on a non-fixed,
nonempty cell, snapshot, zero the value and pencil, count the move. -/
def clearCmd (gm : Game) (p : Pos) : Game :=
  let cell := gm.state.grid p
  if !cell.fixed && !(cell.value == 0) then
    let gm1 := gm.push_undo
    { gm1 with
      state :=
        { gm1.state with
          grid := fun q => if q = p then { cell with value := 0, pencil := 0 }
                           else gm1.state.grid q
          moves := gm1.state.moves + 1 } }
  else gm

/-- The Enter/Space branch of `game_loop`: on a non-fixed cell with a
nonzero pencil, snapshot, commit the pencil into the value, count the move. -/
def commitPencilCmd (gm : Game) (p : Pos) : Game :=
  let cell := gm.state.grid p
  if !cell.fixed && !(cell.pencil == 0) then
    let gm1 := gm.push_undo
    { gm1 with
      state :=
        { gm1.state with
          grid := fun q => if q = p then { cell with value := cell.pencil, pencil := 0 }
                           else gm1.state.grid q
          moves := gm1.state.moves + 1 } }
  else gm

/-- `n` digit-entry keystrokes in a row at the same cell. -/
def iterPlace (p : Pos) (d : Nat) (gm : Game) : Nat → Game
  | 0 => gm
  | n + 1 => placeCmd (iterPlace p d gm n) p d

/-! ## Specification-side predicates -/

/-- Two positions share a row, a column, or a 3×3 box — exactly the cells
scanned by `valid`. -/
def SameUnit (p q : Pos) : Prop :=
  p.1 = q.1 ∨ p.2 = q.2 ∨
    ((p.1 : Nat) / 3 = (q.1 : Nat) / 3 ∧ (p.2 : Nat) / 3 = (q.2 : Nat) / 3)

instance (p q : Pos) : Decidable (SameUnit p q) := by
  unfold SameUnit; infer_instance

/-- `h` agrees with every filled cell of `g`. -/
def ExtendsG (g h : Grid) : Prop := ∀ p, g p ≠ 0 → h p = g p

instance (g h : Grid) : Decidable (ExtendsG g h) := by
  unfold ExtendsG; infer_instance

/--
`h` is a leaf of the backtracking search started on `g`: it extends `g`,
fills every empty cell of `g` with a digit 1–9, and no two same-unit cells
carry equal values unless both were already given in `g` (given cells are
never re-checked by the search).
-/
def OkC (g h : Grid) : Prop :=
  (∀ p, g p = 0 → 1 ≤ h p ∧ h p ≤ 9) ∧ ExtendsG g h ∧
    ∀ p q, p ≠ q → SameUnit p q → g p = 0 ∨ g q = 0 → h p ≠ h q

instance (g h : Grid) : Decidable (OkC g h) := by
  unfold OkC; infer_instance

/-- `h` is a constraint-satisfying completion of `g`: a fully filled digit
grid extending `g` with pairwise distinct values in every row, column and
box. -/
def IsSolution (g h : Grid) : Prop :=
  (∀ p, 1 ≤ h p ∧ h p ≤ 9) ∧ ExtendsG g h ∧
    ∀ p q, p ≠ q → SameUnit p q → h p ≠ h q

instance (g h : Grid) : Decidable (IsSolution g h) := by
  unfold IsSolution; infer_instance

/-- The given (nonzero) cells of `g` are pairwise conflict-free — the Grid
invariant of the data model. -/
def NoConflict (g : Grid) : Prop :=
  ∀ p q, p ≠ q → SameUnit p q → g p ≠ 0 → g q ≠ 0 → g p ≠ g q

instance (g : Grid) : Decidable (NoConflict g) := by
  unfold NoConflict; infer_instance

/-- Every drawn sample is a permutation of `range(1,10)` — what
`random.sample(range(1,10), 9)` guarantees. -/
def StreamPerm (st : Nat → List Nat) : Prop := ∀ k, (st k).Perm digits19

/-- The functional mirror of the `dfs` search tree: the list of leaf grids
in candidate order.  `dfs` counts exactly these leaves and `solve` stops at
the first one. -/
def completionsF : Nat → Grid → List Grid
  | 0, _ => []
  | fuel + 1, g =>
    match firstEmpty g with
    | none => [g]
    | some (r, c) =>
      (digits19.filter fun n => valid g r c n).flatMap fun n =>
        completionsF fuel (gset g (r, c) n)

/-! ## Basic grid lemmas -/

@[simp] theorem gset_self (g : Grid) (p : Pos) (n : Nat) : gset g p n p = n := by
  simp [gset]

theorem gset_ne (g : Grid) {p q : Pos} (n : Nat) (h : q ≠ p) :
    gset g p n q = g q := by simp [gset, h]

theorem gset_gset_same (g : Grid) (p : Pos) (a b : Nat) :
    gset (gset g p a) p b = gset g p b := by
  funext q; by_cases h : q = p <;> simp [gset, h]

theorem gset_eq_self (g : Grid) (p : Pos) : gset g p (g p) = g := by
  funext q; by_cases h : q = p <;> simp [gset, h]

theorem mem_allPos (p : Pos) : p ∈ allPos := by
  obtain ⟨r, c⟩ := p
  simp [allPos]

theorem firstEmpty_none {g : Grid} (h : firstEmpty g = none) :
    ∀ p, g p ≠ 0 := by
  intro p
  have := List.find?_eq_none.mp h p (mem_allPos p)
  simpa using this

theorem firstEmpty_some {g : Grid} {p : Pos} (h : firstEmpty g = some p) :
    g p = 0 := by
  have := List.find?_some h
  simpa using this

theorem card_pos_univ : Fintype.card Pos = 81 := by simp

theorem zeroCount_lt_82 (g : Grid) : zeroCount g < 82 := by
  have h := Finset.card_filter_le Finset.univ fun p : Pos => g p = 0
  have h2 : (Finset.univ : Finset Pos).card = 81 := by simp [Finset.card_univ]
  unfold zeroCount
  omega

theorem zeroCount_gset_lt {g : Grid} {p : Pos} {n : Nat} (hp : g p = 0)
    (hn : n ≠ 0) : zeroCount (gset g p n) < zeroCount g := by
  apply Finset.card_lt_card
  constructor
  · intro q hq
    simp only [Finset.mem_filter, Finset.mem_univ, true_and] at hq ⊢
    by_cases hqp : q = p
    · subst hqp; simp at hq; exact absurd hq hn
    · rwa [gset_ne g n hqp] at hq
  · intro hsub
    have hmem : p ∈ Finset.univ.filter fun q : Pos => g q = 0 := by
      simp [hp]
    have := hsub hmem
    simp at this
    exact hn this

theorem zeroCount_gset_zero {g : Grid} {p : Pos} (hp : g p ≠ 0) :
    zeroCount (gset g p 0) = zeroCount g + 1 := by
  unfold zeroCount
  have hset : (Finset.univ.filter fun q : Pos => gset g p 0 q = 0)
      = insert p (Finset.univ.filter fun q : Pos => g q = 0) := by
    ext q
    simp only [Finset.mem_filter, Finset.mem_univ, true_and, Finset.mem_insert]
    by_cases hqp : q = p
    · subst hqp; simp
    · rw [gset_ne g 0 hqp]; simp [hqp]
  rw [hset, Finset.card_insert_of_not_mem (by simp [hp])]

theorem zeroCount_gset_le (g : Grid) (p : Pos) :
    zeroCount (gset g p 0) ≤ zeroCount g + 1 := by
  unfold zeroCount
  have hsub : (Finset.univ.filter fun q : Pos => gset g p 0 q = 0)
      ⊆ insert p (Finset.univ.filter fun q : Pos => g q = 0) := by
    intro q hq
    simp only [Finset.mem_filter, Finset.mem_univ, true_and] at hq
    by_cases hqp : q = p
    · simp [hqp]
    · rw [gset_ne g 0 hqp] at hq
      simp [hq]
  calc (Finset.univ.filter fun q : Pos => gset g p 0 q = 0).card
      ≤ (insert p (Finset.univ.filter fun q : Pos => g q = 0)).card :=
        Finset.card_le_card hsub
    _ ≤ _ := Finset.card_insert_le _ _

theorem zeroCount_eq_zero {g : Grid} (h : ∀ p, g p ≠ 0) : zeroCount g = 0 := by
  unfold zeroCount
  simp only [Finset.card_eq_zero, Finset.filter_eq_empty_iff]
  intro p _
  exact h p

theorem sameUnit_symm {p q : Pos} (h : SameUnit p q) : SameUnit q p := by
  rcases h with h | h | ⟨h1, h2⟩
  · exact Or.inl h.symm
  · exact Or.inr (Or.inl h.symm)
  · exact Or.inr (Or.inr ⟨h1.symm, h2.symm⟩)

theorem mem_digits19 {n : Nat} : n ∈ digits19 ↔ 1 ≤ n ∧ n ≤ 9 := by
  simp only [digits19, List.mem_cons, List.not_mem_nil, or_false]
  omega

/-- The cells scanned by `valid` are exactly the same-unit cells: `valid`
succeeds iff no same-unit cell (including `(r,c)` itself) holds `n`. -/
theorem valid_iff (g : Grid) (r c : Fin 9) (n : Nat) :
    valid g r c n = true ↔ ∀ q, SameUnit (r, c) q → g q ≠ n := by
  unfold valid
  simp only [Bool.and_eq_true, List.all_eq_true, List.mem_finRange,
    Bool.not_eq_true', beq_eq_false_iff_ne, ne_eq, true_implies]
  constructor
  · rintro ⟨hline, hbox⟩ q hq
    obtain ⟨q1, q2⟩ := q
    rcases hq with h1 | h2 | ⟨h3, h4⟩
    · simp only at h1
      subst h1
      exact (hline q2).1
    · simp only at h2
      subst h2
      exact (hline q1).2
    · simp only at h3 h4
      have i1 : (q1 : Nat) % 3 < 3 := by omega
      have i2 : (q2 : Nat) % 3 < 3 := by omega
      have e1 : boxPos r ⟨(q1 : Nat) % 3, i1⟩ = q1 := by
        apply Fin.ext
        simp only [boxPos]
        have := q1.isLt
        omega
      have e2 : boxPos c ⟨(q2 : Nat) % 3, i2⟩ = q2 := by
        apply Fin.ext
        simp only [boxPos]
        have := q2.isLt
        omega
      have := hbox ⟨(q1 : Nat) % 3, i1⟩ ⟨(q2 : Nat) % 3, i2⟩
      rwa [e1, e2] at this
  · intro h
    refine ⟨fun i => ⟨?_, ?_⟩, fun i j => ?_⟩
    · exact h (r, i) (Or.inl rfl)
    · exact h (i, c) (Or.inr (Or.inl rfl))
    · refine h (boxPos r i, boxPos c j) (Or.inr (Or.inr ⟨?_, ?_⟩))
      · simp only [boxPos]
        have := i.isLt
        have := r.isLt
        omega
      · simp only [boxPos]
        have := j.isLt
        have := c.isLt
        omega

/-- On a grid with no empty cell, the only search leaf is the grid itself. -/
theorem okC_of_complete {g : Grid} (hc : ∀ p, g p ≠ 0) (h : Grid) :
    OkC g h ↔ h = g := by
  constructor
  · rintro ⟨_, he, _⟩
    funext p
    exact he p (hc p)
  · rintro rfl
    exact ⟨fun p hp => absurd hp (hc p), fun p _ => rfl,
      fun p q _ _ hz => absurd hz (by simp [hc p, hc q])⟩

/-- Placing a legal digit at an empty cell and completing from there yields
a leaf of the original grid. -/
theorem okC_step {g : Grid} {r c : Fin 9} {n : Nat} {h : Grid}
    (hp : g (r, c) = 0) (hn1 : 1 ≤ n) (hn9 : n ≤ 9)
    (hv : valid g r c n = true) (hok : OkC (gset g (r, c) n) h) : OkC g h := by
  obtain ⟨hd, he, hpair⟩ := hok
  have hrc : h (r, c) = n := by
    have := he (r, c) (by simp; omega)
    simpa using this
  refine ⟨?_, ?_, ?_⟩
  · intro q hq
    by_cases hq0 : q = (r, c)
    · subst hq0
      rw [hrc]
      omega
    · exact hd q (by rw [gset_ne g n hq0]; exact hq)
  · intro q hq
    have hq0 : q ≠ (r, c) := fun e => hq (e ▸ hp)
    have := he q (by rw [gset_ne g n hq0]; exact hq)
    rwa [gset_ne g n hq0] at this
  · intro a b hab hsu hz
    by_cases ha : a = (r, c) <;> by_cases hb : b = (r, c)
    · exact absurd (ha.trans hb.symm) hab
    · subst ha
      by_cases hgb : g b = 0
      · exact hpair _ b hab hsu (Or.inr (by rw [gset_ne g n hb]; exact hgb))
      · have h1 : h b = g b := by
          have := he b (by rw [gset_ne g n hb]; exact hgb)
          rwa [gset_ne g n hb] at this
        rw [hrc, h1]
        exact fun e => (valid_iff g r c n |>.mp hv b hsu) e.symm
    · subst hb
      by_cases hga : g a = 0
      · exact hpair a _ hab hsu (Or.inl (by rw [gset_ne g n ha]; exact hga))
      · have h1 : h a = g a := by
          have := he a (by rw [gset_ne g n ha]; exact hga)
          rwa [gset_ne g n ha] at this
        rw [hrc, h1]
        exact fun e => (valid_iff g r c n |>.mp hv a (sameUnit_symm hsu)) e
    · refine hpair a b hab hsu ?_
      rcases hz with hz | hz
      · exact Or.inl (by rw [gset_ne g n ha]; exact hz)
      · exact Or.inr (by rw [gset_ne g n hb]; exact hz)

/-- Conversely, every leaf of a grid with empty cell `(r,c)` is a leaf of
the grid with its own digit placed there, and that digit is legal. -/
theorem okC_unstep {g : Grid} {r c : Fin 9} {h : Grid}
    (hp : g (r, c) = 0) (hok : OkC g h) :
    1 ≤ h (r, c) ∧ h (r, c) ≤ 9 ∧ valid g r c (h (r, c)) = true ∧
      OkC (gset g (r, c) (h (r, c))) h := by
  obtain ⟨hd, he, hpair⟩ := hok
  obtain ⟨hd1, hd9⟩ := hd (r, c) hp
  have hval : valid g r c (h (r, c)) = true := by
    rw [valid_iff]
    intro q hsu
    by_cases hq : q = (r, c)
    · subst hq
      rw [hp]
      omega
    · by_cases hgq : g q = 0
      · rw [hgq]
        omega
      · have h1 : h q = g q := he q hgq
        have h2 := hpair q (r, c) hq (sameUnit_symm hsu) (Or.inr hp)
        rw [← h1]
        exact h2
  refine ⟨hd1, hd9, hval, ?_, ?_, ?_⟩
  · intro q hq
    by_cases hq0 : q = (r, c)
    · subst hq0
      simp at hq
      omega
    · rw [gset_ne g _ hq0] at hq
      exact hd q hq
  · intro q hq
    by_cases hq0 : q = (r, c)
    · subst hq0
      simp
    · rw [gset_ne g _ hq0] at hq ⊢
      exact he q hq
  · intro a b hab hsu hz
    refine hpair a b hab hsu ?_
    rcases hz with hz | hz
    · by_cases ha : a = (r, c)
      · exact Or.inl (ha ▸ hp)
      · exact Or.inl (by rwa [gset_ne g _ ha] at hz)
    · by_cases hb : b = (r, c)
      · exact Or.inr (hb ▸ hp)
      · exact Or.inr (by rwa [gset_ne g _ hb] at hz)

theorem clueCount_add_zeroCount (g : Grid) : clueCount g + zeroCount g = 81 := by
  unfold clueCount zeroCount
  have h := Finset.filter_card_add_filter_neg_card_eq_card
    (s := (Finset.univ : Finset Pos)) (p := fun p : Pos => g p = 0)
  simp only [Finset.card_univ, card_pos_univ, Ne] at h ⊢
  omega

/-! ## The search tree: membership, distinctness, counting -/

/-- A grid is a leaf of its own search tree iff it is a leaf in the `OkC`
sense: the functional tree `completionsF` collects exactly the `OkC`
completions. -/
theorem mem_completionsF {fuel : Nat} {g : Grid} (hf : zeroCount g < fuel)
    {h : Grid} : h ∈ completionsF fuel g ↔ OkC g h := by
  induction fuel generalizing g with
  | zero => omega
  | succ fuel ih =>
    rcases hfe : firstEmpty g with _ | ⟨r, c⟩
    · rw [completionsF, hfe]
      simpa using (okC_of_complete (firstEmpty_none hfe) h).symm
    · have hp : g (r, c) = 0 := firstEmpty_some hfe
      rw [completionsF, hfe, List.mem_flatMap]
      constructor
      · rintro ⟨n, hn, hmem⟩
        rw [List.mem_filter] at hn
        obtain ⟨hn19, hnv⟩ := hn
        rw [mem_digits19] at hn19
        have hlt : zeroCount (gset g (r, c) n) < fuel := by
          have := zeroCount_gset_lt hp (show n ≠ 0 by omega)
          omega
        exact okC_step hp hn19.1 hn19.2 hnv ((ih hlt).mp hmem)
      · intro hok
        obtain ⟨h1, h9, hv, hok2⟩ := okC_unstep hp hok
        refine ⟨h (r, c), ?_, ?_⟩
        · rw [List.mem_filter, mem_digits19]
          exact ⟨⟨h1, h9⟩, hv⟩
        · have hlt : zeroCount (gset g (r, c) (h (r, c))) < fuel := by
            have := zeroCount_gset_lt hp (show h (r, c) ≠ 0 by omega)
            omega
          exact (ih hlt).mpr hok2

/-- Different leaves of the search tree are different grids: sibling
branches place different digits at the branching cell. -/
theorem nodup_completionsF {fuel : Nat} {g : Grid} (hf : zeroCount g < fuel) :
    (completionsF fuel g).Nodup := by
  induction fuel generalizing g with
  | zero => omega
  | succ fuel ih =>
    rcases hfe : firstEmpty g with _ | ⟨r, c⟩
    · rw [completionsF, hfe]
      exact List.nodup_singleton g
    · have hp : g (r, c) = 0 := firstEmpty_some hfe
      rw [completionsF, hfe]
      rw [List.nodup_flatMap]
      have hfilter : ∀ n ∈ digits19.filter fun m => valid g r c m,
          1 ≤ n ∧ n ≤ 9 := by
        intro n hn
        rw [List.mem_filter, mem_digits19] at hn
        exact hn.1
      constructor
      · intro n hn
        obtain ⟨h1, h9⟩ := hfilter n hn
        have := zeroCount_gset_lt hp (show n ≠ 0 by omega)
        exact ih (by omega)
      · refine List.Nodup.pairwise_of_forall_ne
          ((List.Nodup.filter _) (by decide)) ?_
        intro a ha b hb hab
        obtain ⟨ha1, ha9⟩ := hfilter a ha
        obtain ⟨hb1, hb9⟩ := hfilter b hb
        rw [Function.onFun]
        rw [List.disjoint_left]
        intro x hxa hxb
        have hlta : zeroCount (gset g (r, c) a) < fuel := by
          have := zeroCount_gset_lt hp (show a ≠ 0 by omega)
          omega
        have hltb : zeroCount (gset g (r, c) b) < fuel := by
          have := zeroCount_gset_lt hp (show b ≠ 0 by omega)
          omega
        have hoa := (mem_completionsF hlta).mp hxa
        have hob := (mem_completionsF hltb).mp hxb
        have hxa2 : x (r, c) = a := by
          have := hoa.2.1 (r, c) (by simp; omega)
          simpa using this
        have hxb2 : x (r, c) = b := by
          have := hob.2.1 (r, c) (by simp; omega)
          simpa using this
        exact hab (hxa2 ▸ hxb2)

theorem sameUnit_refl (p : Pos) : SameUnit p p := Or.inl rfl

theorem gset_eq_self' {g : Grid} {p : Pos} (hp : g p = 0) : gset g p 0 = g := by
  rw [← hp]
  exact gset_eq_self g p

/-- `dfs` adds to the counter exactly the number of leaves of the search
tree and leaves the grid as it found it. -/
theorem dfsF_eq {fuel : Nat} :
    ∀ {g : Grid} (cnt : Nat), zeroCount g < fuel →
      dfsF fuel g cnt = (cnt + (completionsF fuel g).length, g) := by
  induction fuel with
  | zero => intro g cnt hf; omega
  | succ fuel ih =>
    intro g cnt hf
    rcases hfe : firstEmpty g with _ | ⟨r, c⟩
    · rw [dfsF, hfe, completionsF, hfe]
      rfl
    · have hp : g (r, c) = 0 := firstEmpty_some hfe
      rw [dfsF, hfe, completionsF, hfe]
      dsimp only
      have hloop : ∀ (cands : List Nat) (cnt0 : Nat),
          dfsLoop (fun g2 c2 => dfsF fuel g2 c2) g r c cnt0 cands =
            (cnt0 + ((cands.filter fun n => valid g r c n).map
              (fun n => (completionsF fuel (gset g (r, c) n)).length)).sum, g) := by
        intro cands
        induction cands with
        | nil => intro cnt0; simp [dfsLoop]
        | cons n rest ihl =>
          intro cnt0
          rw [dfsLoop]
          by_cases hv : valid g r c n
          · have hn0 : n ≠ 0 := by
              intro e
              exact (valid_iff g r c n).mp hv (r, c) (sameUnit_refl _)
                (by rw [hp, e])
            have hlt : zeroCount (gset g (r, c) n) < fuel := by
              have := zeroCount_gset_lt hp hn0
              omega
            rw [if_pos hv, ih cnt0 hlt]
            dsimp only
            rw [gset_gset_same, gset_eq_self' hp, ihl]
            simp [List.filter_cons, hv]
            omega
          · rw [if_neg hv, ihl]
            simp [List.filter_cons, hv]
      rw [hloop]
      rw [List.length_flatMap]
      simp [Function.comp_def]

/--
The full specification of the backtracking `solve`:
on failure it hands the grid back exactly as it received it (every tried
digit was reset) and — provided the candidate orders cover 1–9, which
`range(1,10)` does in deterministic mode and any sample permutation does in
fill mode — failure also means the search tree has no leaf at all; on
success the final grid is a leaf of the search tree (provided the candidate
orders only contain digits, so that every placement is a tree edge).
-/
theorem solveF_spec (fill : Bool) (st : Nat → List Nat)
    (hdig : fill = true → ∀ k n, n ∈ st k → n ∈ digits19)
    (hfull : fill = true → ∀ k n, n ∈ digits19 → n ∈ st k) :
    ∀ {fuel : Nat} {g : Grid} (k : Nat), zeroCount g < fuel →
      ((solveF fill st fuel g k).1 = false →
        (solveF fill st fuel g k).2.1 = g ∧ completionsF fuel g = []) ∧
      ((solveF fill st fuel g k).1 = true →
        (solveF fill st fuel g k).2.1 ∈ completionsF fuel g) := by
  intro fuel
  induction fuel with
  | zero => intro g k hf; omega
  | succ fuel ih =>
    intro g k hf
    rcases hfe : firstEmpty g with _ | ⟨r, c⟩
    · rw [solveF, hfe, completionsF, hfe]
      dsimp only
      exact ⟨fun h => (nomatch h), fun _ => List.mem_singleton.mpr rfl⟩
    · have hp : g (r, c) = 0 := firstEmpty_some hfe
      rw [solveF, hfe]
      dsimp only
      have hcov : ∀ n ∈ digits19, n ∈ if fill then st k else digits19 := by
        cases fill with
        | false => intro n hn; simpa using hn
        | true => intro n hn; simpa using hfull rfl k n hn
      have hcd : ∀ n ∈ (if fill then st k else digits19), n ∈ digits19 := by
        cases fill with
        | false => intro n hn; simpa using hn
        | true => intro n hn; exact hdig rfl k n (by simpa using hn)
      set kk := if fill then k + 1 else k with hkk
      have hloop : ∀ (cands : List Nat), (∀ n ∈ cands, n ∈ digits19) →
          ∀ (k0 : Nat),
          ((solveLoop (fun g2 k2 => solveF fill st fuel g2 k2) g r c k0 cands).1
              = false →
            (solveLoop (fun g2 k2 => solveF fill st fuel g2 k2) g r c k0
              cands).2.1 = g ∧
            ∀ n ∈ cands, valid g r c n = true →
              completionsF fuel (gset g (r, c) n) = []) ∧
          ((solveLoop (fun g2 k2 => solveF fill st fuel g2 k2) g r c k0 cands).1
              = true →
            (solveLoop (fun g2 k2 => solveF fill st fuel g2 k2) g r c k0
              cands).2.1 ∈ completionsF (fuel + 1) g) := by
        intro cands
        induction cands with
        | nil =>
          intro _ k0
          exact ⟨fun _ => ⟨rfl, fun n hn => absurd hn (List.not_mem_nil n)⟩,
            fun h => (nomatch h)⟩
        | cons n rest ihl =>
          intro hclist k0
          have hcn : n ∈ digits19 := hclist n (List.mem_cons_self n rest)
          have hcrest := fun m hm => hclist m (List.mem_cons_of_mem n hm)
          rw [solveLoop]
          by_cases hv : valid g r c n
          · rw [if_pos hv]
            have hn0 : n ≠ 0 := by
              intro e
              exact (valid_iff g r c n).mp hv (r, c) (sameUnit_refl _)
                (by rw [hp, e])
            have hlt : zeroCount (gset g (r, c) n) < fuel := by
              have := zeroCount_gset_lt hp hn0
              omega
            obtain ⟨hrec_f, hrec_t⟩ := ih (g := gset g (r, c) n) k0 hlt
            rcases hres : solveF fill st fuel (gset g (r, c) n) k0
              with ⟨b1, g1, k1⟩
            rw [hres] at hrec_f hrec_t
            cases b1 with
            | true =>
              dsimp only
              refine ⟨fun h => (nomatch h), fun _ => ?_⟩
              rw [completionsF, hfe]
              dsimp only
              rw [List.mem_flatMap]
              exact ⟨n, List.mem_filter.mpr ⟨hcn, hv⟩, hrec_t rfl⟩
            | false =>
              dsimp only
              obtain ⟨hg1, hempty⟩ := hrec_f rfl
              dsimp only at hg1
              rw [hg1, gset_gset_same, gset_eq_self' hp]
              obtain ⟨hfail, hsucc⟩ := ihl hcrest k1
              refine ⟨fun hb => ?_, hsucc⟩
              obtain ⟨hgr, hall⟩ := hfail hb
              refine ⟨hgr, fun m hm hvm => ?_⟩
              rcases List.mem_cons.mp hm with rfl | hm2
              · exact hempty
              · exact hall m hm2 hvm
          · rw [if_neg hv]
            obtain ⟨hfail, hsucc⟩ := ihl hcrest k0
            refine ⟨fun hb => ?_, hsucc⟩
            obtain ⟨hgr, hall⟩ := hfail hb
            refine ⟨hgr, fun m hm hvm => ?_⟩
            rcases List.mem_cons.mp hm with rfl | hm2
            · exact absurd hvm (by simp [hv])
            · exact hall m hm2 hvm
      obtain ⟨hfail, hsucc⟩ := hloop (if fill then st k else digits19) hcd kk
      refine ⟨fun hb => ?_, hsucc⟩
      obtain ⟨hgr, hall⟩ := hfail hb
      refine ⟨hgr, ?_⟩
      rw [completionsF, hfe]
      rw [List.flatMap_eq_nil_iff]
      intro m hm
      rw [List.mem_filter] at hm
      exact hall m (hcov m hm.1) hm.2

/-- `unique_solution(grid)` is `True` iff the search tree of the grid has
exactly one leaf. -/
theorem unique_solution_iff (g : Grid) :
    unique_solution g = true ↔ (completionsF 82 g).length = 1 := by
  unfold unique_solution
  rw [dfsF_eq 0 (zeroCount_lt_82 g)]
  simp

/-- Failure restoration on its own, for arbitrary mode and stream: when
`solve` returns `False`, every digit it placed has been reset, so the grid
it hands back is the grid it was given. -/
theorem solveF_restore (fill : Bool) (st : Nat → List Nat) :
    ∀ {fuel : Nat} {g : Grid} (k : Nat), zeroCount g < fuel →
      (solveF fill st fuel g k).1 = false →
      (solveF fill st fuel g k).2.1 = g := by
  intro fuel
  induction fuel with
  | zero => intro g k hf; omega
  | succ fuel ih =>
    intro g k hf
    rcases hfe : firstEmpty g with _ | ⟨r, c⟩
    · rw [solveF, hfe]
      exact fun h => (nomatch h)
    · have hp : g (r, c) = 0 := firstEmpty_some hfe
      rw [solveF, hfe]
      dsimp only
      have hloop : ∀ (cands : List Nat) (k0 : Nat),
          (solveLoop (fun g2 k2 => solveF fill st fuel g2 k2) g r c k0
            cands).1 = false →
          (solveLoop (fun g2 k2 => solveF fill st fuel g2 k2) g r c k0
            cands).2.1 = g := by
        intro cands
        induction cands with
        | nil => intro k0 _; rfl
        | cons n rest ihl =>
          intro k0
          rw [solveLoop]
          by_cases hv : valid g r c n
          · rw [if_pos hv]
            have hn0 : n ≠ 0 := fun e =>
              (valid_iff g r c n).mp hv (r, c) (sameUnit_refl _)
                (by rw [hp, e])
            have hlt : zeroCount (gset g (r, c) n) < fuel := by
              have := zeroCount_gset_lt hp hn0
              omega
            rcases hres : solveF fill st fuel (gset g (r, c) n) k0
              with ⟨b1, g1, k1⟩
            cases b1 with
            | true => exact fun h => (nomatch h)
            | false =>
              dsimp only
              have hg1 : g1 = gset g (r, c) n := by
                have h2 := ih (g := gset g (r, c) n) k0 hlt
                rw [hres] at h2
                exact h2 rfl
              rw [hg1, gset_gset_same, gset_eq_self' hp]
              exact ihl k1
          · rw [if_neg hv]
            exact ihl k0
      exact hloop _ _

theorem firstEmpty_of_complete {g : Grid} (hc : ∀ p, g p ≠ 0) :
    firstEmpty g = none :=
  List.find?_eq_none.mpr fun p _ => by simpa using hc p

theorem completionsF_of_complete {fuel : Nat} {g : Grid} (hc : ∀ p, g p ≠ 0) :
    completionsF (fuel + 1) g = [g] := by
  rw [completionsF, firstEmpty_of_complete hc]

/-- A grid with no empty cell passes `unique_solution`: the search finds the
single leaf `g` itself. -/
theorem unique_solution_of_complete {g : Grid} (hc : ∀ p, g p ≠ 0) :
    unique_solution g = true := by
  rw [unique_solution_iff]
  have h82 : completionsF 82 g = completionsF (81 + 1) g := rfl
  rw [h82, completionsF_of_complete hc]
  rfl

/-- Leaves over the empty grid are complete. -/
theorem okC_empty_complete {s : Grid} (h : OkC emptyGrid s) : ∀ p, s p ≠ 0 :=
  fun p => by
    have := h.1 p rfl
    omega

/-- A leaf over the empty grid (a fully valid solved grid) is a leaf over
any grid it extends. -/
theorem okC_of_extends {g s : Grid} (hs : OkC emptyGrid s)
    (he : ExtendsG g s) : OkC g s :=
  ⟨fun p _ => hs.1 p rfl, he,
    fun p q hpq hsu _ => hs.2.2 p q hpq hsu (Or.inl rfl)⟩

/-! ## The removal loop -/

/-- The removal loop preserves `unique_solution`: a removal is committed
only when the check passes, and a rejected removal restores the grid. -/
theorem removeCells_unique {t : Nat} :
    ∀ (order : List Pos) {g : Grid} (rm : Nat), unique_solution g = true →
      unique_solution (removeCells t order g rm).1 = true := by
  intro order
  induction order with
  | nil =>
    intro g rm h
    rw [removeCells]
    exact h
  | cons p rest ihl =>
    intro g rm h
    rw [removeCells]
    by_cases hbr : 81 - t ≤ rm
    · rw [if_pos hbr]
      exact h
    · rw [if_neg hbr]
      dsimp only
      by_cases hu : unique_solution (gset g p 0)
      · rw [if_pos hu]
        exact ihl _ hu
      · rw [if_neg hu]
        rw [gset_gset_same, gset_eq_self]
        exact ihl _ h

/-- The removal loop only ever empties cells, so the solution keeps
extending the working grid. -/
theorem removeCells_extends {t : Nat} :
    ∀ (order : List Pos) {g s : Grid} (rm : Nat), ExtendsG g s →
      ExtendsG (removeCells t order g rm).1 s := by
  intro order
  induction order with
  | nil =>
    intro g s rm h
    rw [removeCells]
    exact h
  | cons p rest ihl =>
    intro g s rm h
    rw [removeCells]
    by_cases hbr : 81 - t ≤ rm
    · rw [if_pos hbr]
      exact h
    · rw [if_neg hbr]
      dsimp only
      by_cases hu : unique_solution (gset g p 0)
      · rw [if_pos hu]
        refine ihl _ ?_
        intro q hq
        by_cases hqp : q = p
        · subst hqp
          simp at hq
        · rw [gset_ne g 0 hqp] at hq
          rw [gset_ne g 0 hqp]
          exact h q hq
      · rw [if_neg hu]
        rw [gset_gset_same, gset_eq_self]
        exact ihl _ h

/-- The `removed` counter never passes the `81 - num_clues` bound it is
checked against at the top of each iteration. -/
theorem removeCells_removed_le {t : Nat} :
    ∀ (order : List Pos) (g : Grid) (rm : Nat),
      (removeCells t order g rm).2 ≤ max rm (81 - t) := by
  intro order
  induction order with
  | nil => intro g rm; simp [removeCells]
  | cons p rest ihl =>
    intro g rm
    rw [removeCells]
    by_cases hbr : 81 - t ≤ rm
    · rw [if_pos hbr]
      simp
    · rw [if_neg hbr]
      dsimp only
      by_cases hu : unique_solution (gset g p 0)
      · rw [if_pos hu]
        have := ihl (gset g p 0) (rm + 1)
        omega
      · rw [if_neg hu]
        have := ihl (gset (gset g p 0) p (g p)) rm
        omega

/-- Each committed removal empties at most one extra cell. -/
theorem removeCells_zeroCount_le {t : Nat} :
    ∀ (order : List Pos) (g : Grid) (rm : Nat),
      zeroCount (removeCells t order g rm).1 + rm ≤
        zeroCount g + (removeCells t order g rm).2 := by
  intro order
  induction order with
  | nil => intro g rm; simp [removeCells]
  | cons p rest ihl =>
    intro g rm
    rw [removeCells]
    by_cases hbr : 81 - t ≤ rm
    · rw [if_pos hbr]
    · rw [if_neg hbr]
      dsimp only
      by_cases hu : unique_solution (gset g p 0)
      · rw [if_pos hu]
        have h1 := ihl (gset g p 0) (rm + 1)
        have h2 := zeroCount_gset_le g p
        omega
      · rw [if_neg hu]
        rw [gset_gset_same, gset_eq_self]
        exact ihl g rm

/-- Over a duplicate-free visiting order of still-filled cells, each
committed removal empties exactly one extra cell. -/
theorem removeCells_zeroCount_eq {t : Nat} :
    ∀ (order : List Pos) {g : Grid} (rm : Nat), order.Nodup →
      (∀ p ∈ order, g p ≠ 0) →
      zeroCount (removeCells t order g rm).1 + rm =
        zeroCount g + (removeCells t order g rm).2 := by
  intro order
  induction order with
  | nil => intro g rm _ _; simp [removeCells]
  | cons p rest ihl =>
    intro g rm hnd hfill
    have hp : g p ≠ 0 := hfill p (List.mem_cons_self p rest)
    rw [removeCells]
    by_cases hbr : 81 - t ≤ rm
    · rw [if_pos hbr]
    · rw [if_neg hbr]
      dsimp only
      by_cases hu : unique_solution (gset g p 0)
      · rw [if_pos hu]
        have hrest : ∀ q ∈ rest, gset g p 0 q ≠ 0 := by
          intro q hq
          have hqp : q ≠ p := by
            intro e
            subst e
            exact (List.nodup_cons.mp hnd).1 hq
          rw [gset_ne g 0 hqp]
          exact hfill q (List.mem_cons_of_mem p hq)
        have h1 := ihl (rm + 1) (List.nodup_cons.mp hnd).2 hrest
        have h2 := zeroCount_gset_zero hp
        omega
      · rw [if_neg hu]
        rw [gset_gset_same, gset_eq_self]
        exact ihl rm (List.nodup_cons.mp hnd).2
          fun q hq => hfill q (List.mem_cons_of_mem p hq)

set_option maxRecDepth 10000 in
/-- The concrete solved grid really is a leaf over the empty grid, i.e. a
fully valid solved Sudoku. -/
theorem knownSol_okC : OkC emptyGrid knownSol := by decide

/-- Over a digit grid whose given clues are pairwise conflict-free, the
leaves of the search are exactly the constraint-satisfying completions. -/
theorem isSolution_iff_okC {g h : Grid} (hb : ∀ p, g p ≤ 9)
    (hnc : NoConflict g) : IsSolution g h ↔ OkC g h := by
  constructor
  · rintro ⟨hd, he, hp⟩
    exact ⟨fun p _ => hd p, he, fun p q h1 h2 _ => hp p q h1 h2⟩
  · rintro ⟨hd, he, hp⟩
    refine ⟨?_, he, ?_⟩
    · intro p
      by_cases h0 : g p = 0
      · exact hd p h0
      · rw [he p h0]
        exact ⟨by omega, hb p⟩
    · intro p q h1 h2
      by_cases hgp : g p = 0
      · exact hp p q h1 h2 (Or.inl hgp)
      · by_cases hgq : g q = 0
        · exact hp p q h1 h2 (Or.inr hgq)
        · rw [he p hgp, he q hgq]
          exact hnc p q h1 h2 hgp hgq

/-- The search has exactly one leaf iff there is exactly one leaf grid in
the `OkC` sense. -/
theorem length_one_iff_unique_okC (g : Grid) :
    (completionsF 82 g).length = 1 ↔ ∃! h : Grid, OkC g h := by
  have hf : zeroCount g < 82 := zeroCount_lt_82 g
  constructor
  · intro hl
    obtain ⟨a, ha⟩ := List.length_eq_one.mp hl
    refine ⟨a, (mem_completionsF hf).mp (by rw [ha]; exact List.mem_singleton.mpr rfl), ?_⟩
    intro y hy
    have hm := (mem_completionsF hf).mpr hy
    rw [ha] at hm
    exact List.mem_singleton.mp hm
  · rintro ⟨a, ha, huniq⟩
    have hmem : a ∈ completionsF 82 g := (mem_completionsF hf).mpr ha
    have hall : ∀ b ∈ completionsF 82 g, b = a := fun b hb =>
      huniq b ((mem_completionsF hf).mp hb)
    have hnd := nodup_completionsF hf
    rcases hc : completionsF 82 g with _ | ⟨x, xs⟩
    · rw [hc] at hmem
      exact absurd hmem (List.not_mem_nil a)
    · rw [hc] at hall hnd
      rcases xs with _ | ⟨y, ys⟩
      · rfl
      · exfalso
        have hxa : x = a := hall x (List.mem_cons_self x _)
        have hya : y = a := hall y (List.mem_cons_of_mem x (List.mem_cons_self y ys))
        have := (List.nodup_cons.mp hnd).1
        rw [hxa, hya] at this
        exact this (List.mem_cons_self a ys)

/--
Under genuine sampling (each drawn order a permutation of 1–9), the initial
fill step of the generator succeeds and produces a leaf over the empty grid,
i.e. a fully valid, fully filled solved grid: the backtracking search is
exhaustive, and at least one solved grid (`knownSol`) exists.
-/
theorem fill_solve_spec {st : Nat → List Nat} (hst : StreamPerm st) :
    (solveF true st 82 emptyGrid 0).1 = true ∧
      OkC emptyGrid (solveF true st 82 emptyGrid 0).2.1 := by
  have hdig : (true : Bool) = true → ∀ k n, n ∈ st k → n ∈ digits19 :=
    fun _ k n hn => (hst k).mem_iff.mp hn
  have hfull : (true : Bool) = true → ∀ k n, n ∈ digits19 → n ∈ st k :=
    fun _ k n hn => (hst k).mem_iff.mpr hn
  have hf : zeroCount emptyGrid < 82 := zeroCount_lt_82 _
  obtain ⟨hfail, hsucc⟩ := solveF_spec true st hdig hfull 0 hf
  rcases hb : (solveF true st 82 emptyGrid 0).1 with _ | _
  · exfalso
    obtain ⟨_, hemp⟩ := hfail hb
    have hk : knownSol ∈ completionsF 82 emptyGrid :=
      (mem_completionsF hf).mpr knownSol_okC
    rw [hemp] at hk
    exact absurd hk (List.not_mem_nil _)
  · exact ⟨rfl, (mem_completionsF hf).mp (hsucc hb)⟩

/-- **C1.** For every `target_clues`, every removal order, and every sample
stream of permutations of 1–9, the Puzzle returned by `generate_sudoku`
passes `unique_solution`: the fill step yields a complete grid (one search
leaf), and every committed removal re-established the check. -/
theorem C1_generate_puzzle_unique (st : Nat → List Nat) (order : List Pos)
    (num_clues : Nat) (hst : StreamPerm st) :
    unique_solution (generate_sudoku st order num_clues).1 = true := by
  obtain ⟨-, hleaf⟩ := fill_solve_spec hst
  exact removeCells_unique order 0
    (unique_solution_of_complete (okC_empty_complete hleaf))

/-- Witness for C1 at a concrete stream, order, and clue target. -/
theorem C1_witness :
    StreamPerm (fun _ => digits19) ∧
      unique_solution (generate_sudoku (fun _ => digits19) allPos 35).1 = true :=
  ⟨fun _ => List.Perm.refl _,
    C1_generate_puzzle_unique (fun _ => digits19) allPos 35
      fun _ => List.Perm.refl _⟩

/-- **C2.** For every Puzzle/Solution pair produced by `generate_sudoku`
(under genuine sampling), running `solve` in deterministic mode
(`fill=False`, any stream — it is not consulted) on the Puzzle returns
`True` and fills it into exactly the paired Solution. -/
theorem C2_solve_det_recovers_solution (st st2 : Nat → List Nat)
    (order : List Pos) (num_clues k2 : Nat) (hst : StreamPerm st) :
    (solve (generate_sudoku st order num_clues).1 false st2 k2).1 = true ∧
      (solve (generate_sudoku st order num_clues).1 false st2 k2).2.1 =
        (generate_sudoku st order num_clues).2 := by
  obtain ⟨-, hleaf⟩ := fill_solve_spec hst
  have hgen1 : (generate_sudoku st order num_clues).1 =
      (removeCells num_clues order ((solveF true st 82 emptyGrid 0).2.1) 0).1 :=
    rfl
  have hgen2 : (generate_sudoku st order num_clues).2 =
      (solveF true st 82 emptyGrid 0).2.1 := rfl
  rw [hgen1, hgen2]
  unfold solve
  have hext : ExtendsG
      (removeCells num_clues order ((solveF true st 82 emptyGrid 0).2.1) 0).1
      ((solveF true st 82 emptyGrid 0).2.1) :=
    removeCells_extends order 0 fun p _ => rfl
  have hokp : OkC
      (removeCells num_clues order ((solveF true st 82 emptyGrid 0).2.1) 0).1
      ((solveF true st 82 emptyGrid 0).2.1) := okC_of_extends hleaf hext
  have hun : unique_solution
      (removeCells num_clues order ((solveF true st 82 emptyGrid 0).2.1) 0).1
      = true :=
    removeCells_unique order 0
      (unique_solution_of_complete (okC_empty_complete hleaf))
  have hlen := (unique_solution_iff _).mp hun
  have hf : zeroCount
      (removeCells num_clues order ((solveF true st 82 emptyGrid 0).2.1) 0).1
      < 82 := zeroCount_lt_82 _
  have hmem : (solveF true st 82 emptyGrid 0).2.1 ∈ completionsF 82
      (removeCells num_clues order ((solveF true st 82 emptyGrid 0).2.1) 0).1 :=
    (mem_completionsF hf).mpr hokp
  obtain ⟨a, ha⟩ := List.length_eq_one.mp hlen
  have hsa : (solveF true st 82 emptyGrid 0).2.1 = a := by
    rw [ha] at hmem
    exact List.mem_singleton.mp hmem
  have hdig : (false : Bool) = true → ∀ k n, n ∈ st2 k → n ∈ digits19 :=
    fun h => (nomatch h)
  have hfull : (false : Bool) = true → ∀ k n, n ∈ digits19 → n ∈ st2 k :=
    fun h => (nomatch h)
  obtain ⟨hfail, hsucc⟩ := solveF_spec false st2 hdig hfull k2 hf
  rcases hb : (solveF false st2 82
      (removeCells num_clues order ((solveF true st 82 emptyGrid 0).2.1) 0).1
      k2).1 with _ | _
  · exfalso
    obtain ⟨-, hemp⟩ := hfail hb
    rw [ha] at hemp
    exact List.cons_ne_nil a [] hemp
  · refine ⟨rfl, ?_⟩
    have hm2 := hsucc hb
    rw [ha] at hm2
    rw [List.mem_singleton.mp hm2, hsa]

/-- Witness for C2 at a concrete stream, order, and clue target. -/
theorem C2_witness :
    StreamPerm (fun _ => digits19) ∧
      ((solve (generate_sudoku (fun _ => digits19) allPos 35).1
          false (fun _ => digits19) 0).1 = true ∧
        (solve (generate_sudoku (fun _ => digits19) allPos 35).1
          false (fun _ => digits19) 0).2.1 =
          (generate_sudoku (fun _ => digits19) allPos 35).2) :=
  ⟨fun _ => List.Perm.refl _,
    C2_solve_det_recovers_solution (fun _ => digits19) (fun _ => digits19)
      allPos 35 0 fun _ => List.Perm.refl _⟩

theorem allPos_nodup : allPos.Nodup := by decide

theorem generate_sudoku_fst (st : Nat → List Nat) (order : List Pos)
    (t : Nat) : (generate_sudoku st order t).1 =
      (removeCells t order ((solveF true st 82 emptyGrid 0).2.1) 0).1 := rfl

theorem generate_removed_eq (st : Nat → List Nat) (order : List Pos)
    (t : Nat) : generate_removed st order t =
      (removeCells t order ((solveF true st 82 emptyGrid 0).2.1) 0).2 := rfl

/-- When the removal budget is already met (`removed >= 81 - num_clues`),
the loop breaks immediately. -/
theorem removeCells_break {t rm : Nat} (h : 81 - t ≤ rm) :
    ∀ (order : List Pos) (g : Grid), removeCells t order g rm = (g, rm) := by
  intro order g
  cases order with
  | nil => rw [removeCells]
  | cons p rest => rw [removeCells, if_pos h]

/-- **C5 (amended).** For every `target_clues ≤ 81`: the generator commits
at most `81 - target_clues` removals, so the returned Puzzle keeps at least
`target_clues` clues; the clue target defaults to 35.  (For
`target_clues > 81` the clue part is unsatisfiable — see the
counterexample.) -/
theorem C5_amended_clue_bound (st : Nat → List Nat) (order : List Pos)
    (num_clues : Nat) (hcl : num_clues ≤ 81) (hst : StreamPerm st) :
    generate_removed st order num_clues ≤ 81 - num_clues ∧
      num_clues ≤ clueCount (generate_sudoku st order num_clues).1 ∧
      generate_sudoku st order = generate_sudoku st order 35 := by
  obtain ⟨-, hleaf⟩ := fill_solve_spec hst
  have hz : zeroCount (solveF true st 82 emptyGrid 0).2.1 = 0 :=
    zeroCount_eq_zero (okC_empty_complete hleaf)
  have h1 := removeCells_removed_le (t := num_clues) order
    ((solveF true st 82 emptyGrid 0).2.1) 0
  have h2 := removeCells_zeroCount_le (t := num_clues) order
    ((solveF true st 82 emptyGrid 0).2.1) 0
  have h3 := clueCount_add_zeroCount
    (removeCells num_clues order ((solveF true st 82 emptyGrid 0).2.1) 0).1
  have e1 : generate_removed st order num_clues =
      (removeCells num_clues order ((solveF true st 82 emptyGrid 0).2.1) 0).2 :=
    rfl
  have e2 : (generate_sudoku st order num_clues).1 =
      (removeCells num_clues order ((solveF true st 82 emptyGrid 0).2.1) 0).1 :=
    rfl
  rw [Nat.zero_max] at h1
  refine ⟨?_, ?_, rfl⟩
  · rw [e1]
    exact h1
  · rw [e2]
    omega

/-- **C5 (counterexample).** With `target_clues = 100` the returned Puzzle
cannot contain at least 100 nonzero cells: a 9×9 grid has only 81. -/
theorem C5_counterexample :
    ¬ (100 ≤ clueCount (generate_sudoku (fun _ => digits19) allPos 100).1) := by
  have h := clueCount_add_zeroCount
    (generate_sudoku (fun _ => digits19) allPos 100).1
  omega

/-- Witness for the amended C5 at a concrete stream, order, and target. -/
theorem C5_witness :
    (35 ≤ 81 ∧ StreamPerm fun _ => digits19) ∧
      (generate_removed (fun _ => digits19) allPos 35 ≤ 81 - 35 ∧
        35 ≤ clueCount (generate_sudoku (fun _ => digits19) allPos 35).1 ∧
        generate_sudoku (fun _ => digits19) allPos =
          generate_sudoku (fun _ => digits19) allPos 35) :=
  ⟨⟨by omega, fun _ => List.Perm.refl _⟩,
    C5_amended_clue_bound (fun _ => digits19) allPos 35 (by omega)
      fun _ => List.Perm.refl _⟩

/-- **C6 (amended).** The returned Puzzle retains exactly `removed_count`
zeroed cells (not `81 - removed_count`), with
`removed_count ≤ 81 - target_clues`. -/
theorem C6_amended_zero_count (st : Nat → List Nat) (order : List Pos)
    (num_clues : Nat) (hst : StreamPerm st) (hnd : order.Nodup) :
    zeroCount (generate_sudoku st order num_clues).1 =
      generate_removed st order num_clues ∧
      generate_removed st order num_clues ≤ 81 - num_clues := by
  obtain ⟨-, hleaf⟩ := fill_solve_spec hst
  have hcomp := okC_empty_complete hleaf
  have hz : zeroCount (solveF true st 82 emptyGrid 0).2.1 = 0 :=
    zeroCount_eq_zero hcomp
  have heq := removeCells_zeroCount_eq (t := num_clues) order
    (g := (solveF true st 82 emptyGrid 0).2.1) 0 hnd fun p _ => hcomp p
  have h1 := removeCells_removed_le (t := num_clues) order
    ((solveF true st 82 emptyGrid 0).2.1) 0
  rw [Nat.zero_max] at h1
  have e1 : generate_removed st order num_clues =
      (removeCells num_clues order ((solveF true st 82 emptyGrid 0).2.1) 0).2 :=
    rfl
  have e2 : (generate_sudoku st order num_clues).1 =
      (removeCells num_clues order ((solveF true st 82 emptyGrid 0).2.1) 0).1 :=
    rfl
  rw [e1, e2]
  omega

/-- **C6 (counterexample).** A run with `target_clues = 81` commits no
removal and returns the full solved grid: it has 0 zeroed cells, not
`81 - removed_count = 81`. -/
theorem C6_counterexample :
    ¬ (zeroCount (generate_sudoku (fun _ => digits19) allPos 81).1 =
        81 - generate_removed (fun _ => digits19) allPos 81) := by
  have hst : StreamPerm fun _ => digits19 := fun _ => List.Perm.refl _
  obtain ⟨-, hleaf⟩ := fill_solve_spec hst
  have hz : zeroCount (solveF true (fun _ => digits19) 82 emptyGrid 0).2.1 = 0 :=
    zeroCount_eq_zero (okC_empty_complete hleaf)
  have hbr := removeCells_break (show 81 - 81 ≤ 0 by omega) allPos
    ((solveF true (fun _ => digits19) 82 emptyGrid 0).2.1)
  rw [generate_sudoku_fst, generate_removed_eq, hbr]
  dsimp only
  omega

/-- Witness for the amended C6 at a concrete stream, order, and target. -/
theorem C6_witness :
    (StreamPerm (fun _ => digits19) ∧ allPos.Nodup) ∧
      (zeroCount (generate_sudoku (fun _ => digits19) allPos 40).1 =
          generate_removed (fun _ => digits19) allPos 40 ∧
        generate_removed (fun _ => digits19) allPos 40 ≤ 81 - 40) :=
  ⟨⟨fun _ => List.Perm.refl _, allPos_nodup⟩,
    C6_amended_zero_count (fun _ => digits19) allPos 40
      (fun _ => List.Perm.refl _) allPos_nodup⟩

/-- **C3.** For every digit grid (entries 0–9) satisfying the Grid
invariant (given clues pairwise conflict-free), `unique_solution` returns
`True` iff the grid has exactly one constraint-satisfying completion. -/
theorem C3_unique_solution_iff_one_completion (g : Grid)
    (hb : ∀ p, g p ≤ 9) (hnc : NoConflict g) :
    unique_solution g = true ↔ ∃! h : Grid, IsSolution g h := by
  rw [unique_solution_iff, length_one_iff_unique_okC]
  exact (existsUnique_congr fun h => isSolution_iff_okC hb hnc).symm

/-- Witness for C3 at a concrete grid (the empty grid). -/
theorem C3_witness :
    ((∀ p : Pos, emptyGrid p ≤ 9) ∧ NoConflict emptyGrid) ∧
      (unique_solution emptyGrid = true ↔
        ∃! h : Grid, IsSolution emptyGrid h) :=
  ⟨⟨fun _ => by simp [emptyGrid], fun p q _ _ hp _ => absurd rfl hp⟩,
    C3_unique_solution_iff_one_completion emptyGrid
      (fun _ => by simp [emptyGrid]) fun p q _ _ hp _ => absurd rfl hp⟩

/-- **C4 (amended).** `valid(grid, r, c, n)` returns `False` iff `n`
occurs somewhere in row `r`, in column `c`, or in the 3×3 box containing
`(r,c)` — including, unlike the claim, at `(r,c)` itself. -/
theorem C4_amended_valid_iff_occurs (g : Grid) (r c : Fin 9) (n : Nat)
    (h1 : 1 ≤ n) (h9 : n ≤ 9) :
    valid g r c n = false ↔ ∃ q : Pos, SameUnit (r, c) q ∧ g q = n := by
  constructor
  · intro hf
    by_contra hne
    push_neg at hne
    have ht : valid g r c n = true := (valid_iff g r c n).mpr hne
    rw [ht] at hf
    exact (nomatch hf)
  · rintro ⟨q, hsu, hq⟩
    cases hv : valid g r c n with
    | false => rfl
    | true => exact absurd hq ((valid_iff g r c n).mp hv q hsu)

/-- **C4 (counterexample).** On the grid whose only entry is a 5 at
`(0,0)`, `valid(grid, 0, 0, 5)` returns `False` although 5 occurs nowhere
other than `(0,0)` itself: the scans do not exclude the target cell. -/
theorem C4_counterexample :
    ¬ ((valid (gset emptyGrid (0, 0) 5) 0 0 5 = false) ↔
        ∃ q : Pos, q ≠ (0, 0) ∧ SameUnit (0, 0) q ∧
          gset emptyGrid (0, 0) 5 q = 5) := by
  decide

/-- Witness for the amended C4 at a concrete grid and digit. -/
theorem C4_witness :
    (1 ≤ 5 ∧ 5 ≤ 9) ∧
      (valid (gset emptyGrid (0, 3) 5) 0 0 5 = false ↔
        ∃ q : Pos, SameUnit (0, 0) q ∧ gset emptyGrid (0, 3) 5 q = 5) :=
  ⟨by omega, C4_amended_valid_iff_occurs (gset emptyGrid (0, 3) 5) 0 0 5
    (by omega) (by omega)⟩

/-! ## Session commands -/

/-- **C7.** The place, clear, and commit-pencil branches of the game loop
are complete no-ops on a fixed cell: the whole `Game` — cell value and
pencil, move counter, undo stack — is left unchanged. -/
theorem C7_fixed_cell_noop (gm : Game) (p : Pos) (d : Nat)
    (h1 : 1 ≤ d) (h9 : d ≤ 9) (hf : (gm.state.grid p).fixed = true) :
    placeCmd gm p d = gm ∧ clearCmd gm p = gm ∧ commitPencilCmd gm p = gm := by
  refine ⟨?_, ?_, ?_⟩ <;> simp [placeCmd, clearCmd, commitPencilCmd, hf]

/-- A concrete session whose every cell is a fixed clue `1`. -/
def sampleFixedGame : Game :=
  { state := { grid := fun _ => { value := 1, fixed := true, pencil := 0 } } }

/-- Witness for C7 at a concrete session and cell. -/
theorem C7_witness :
    (1 ≤ 5 ∧ 5 ≤ 9 ∧ (sampleFixedGame.state.grid (0, 0)).fixed = true) ∧
      (placeCmd sampleFixedGame (0, 0) 5 = sampleFixedGame ∧
        clearCmd sampleFixedGame (0, 0) = sampleFixedGame ∧
        commitPencilCmd sampleFixedGame (0, 0) = sampleFixedGame) :=
  ⟨⟨by omega, by omega, rfl⟩,
    C7_fixed_cell_noop sampleFixedGame (0, 0) 5 (by omega) (by omega) rfl⟩

/-- After a successful place, `undo` pops exactly the snapshot the place
pushed — a clone of the pre-place state. -/
theorem place_undo_state {gm : Game} {p : Pos} (d : Nat)
    (hnf : (gm.state.grid p).fixed = false) :
    ((placeCmd gm p d).undo).state = gm.state := by
  have hstack : (placeCmd gm p d).undo_stack =
      (if 200 < (gm.undo_stack ++ [gm.state.clone]).length
        then (gm.undo_stack ++ [gm.state.clone]).tail
        else gm.undo_stack ++ [gm.state.clone]) := by
    simp [placeCmd, hnf, Game.push_undo]
  have hlast : (placeCmd gm p d).undo_stack.getLast? = some gm.state.clone := by
    rw [hstack]
    by_cases hlen : 200 < (gm.undo_stack ++ [gm.state.clone]).length
    · rw [if_pos hlen]
      rcases hst : gm.undo_stack with _ | ⟨x, xs⟩
      · rw [hst] at hlen
        simp at hlen
      · simp [List.getLast?_concat]
    · rw [if_neg hlen]
      exact List.getLast?_concat _
  unfold Game.undo
  rw [hlast]
  exact SudokuState.clone_eq gm.state

/-- **C8.** Starting from any session, placing a digit on a non-fixed cell
and then undoing restores the cell grid (values, fixed flags, pencils), the
puzzle, the solution, and the move counter exactly. -/
theorem C8_place_undo_roundtrip (gm : Game) (p : Pos) (d : Nat)
    (h1 : 1 ≤ d) (h9 : d ≤ 9) (hnf : (gm.state.grid p).fixed = false) :
    ((placeCmd gm p d).undo).state.grid = gm.state.grid ∧
      ((placeCmd gm p d).undo).state.puzzle = gm.state.puzzle ∧
      ((placeCmd gm p d).undo).state.solution = gm.state.solution ∧
      ((placeCmd gm p d).undo).state.moves = gm.state.moves := by
  rw [place_undo_state d hnf]
  exact ⟨rfl, rfl, rfl, rfl⟩

/-- A concrete fresh session: all cells empty and editable, empty undo
stack. -/
def sampleGame : Game := { state := {} }

/-- Witness for C8 at a concrete session, cell, and digit. -/
theorem C8_witness :
    (1 ≤ 5 ∧ 5 ≤ 9 ∧ (sampleGame.state.grid (0, 0)).fixed = false) ∧
      (((placeCmd sampleGame (0, 0) 5).undo).state.grid =
          sampleGame.state.grid ∧
        ((placeCmd sampleGame (0, 0) 5).undo).state.puzzle =
          sampleGame.state.puzzle ∧
        ((placeCmd sampleGame (0, 0) 5).undo).state.solution =
          sampleGame.state.solution ∧
        ((placeCmd sampleGame (0, 0) 5).undo).state.moves =
          sampleGame.state.moves) :=
  ⟨⟨by omega, by omega, rfl⟩,
    C8_place_undo_roundtrip sampleGame (0, 0) 5 (by omega) (by omega) rfl⟩

theorem placeCmd_grid_fixed {gm : Game} {p : Pos} {d : Nat}
    (hnf : (gm.state.grid p).fixed = false) :
    ((placeCmd gm p d).state.grid p).fixed = false := by
  simp [placeCmd, hnf, Game.push_undo]

theorem iterPlace_unfixed (gm : Game) (p : Pos) (d : Nat)
    (hnf : (gm.state.grid p).fixed = false) :
    ∀ n, ((iterPlace p d gm n).state.grid p).fixed = false := by
  intro n
  induction n with
  | zero => exact hnf
  | succ n ihn => exact placeCmd_grid_fixed ihn

set_option maxRecDepth 4000 in
/-- The undo stack after `n` places holds the last at most 200 of the `n`
pre-place snapshots, oldest first. -/
theorem iterPlace_stack (gm : Game) (p : Pos) (d : Nat)
    (h0 : gm.undo_stack = []) (hnf : (gm.state.grid p).fixed = false) :
    ∀ n, (iterPlace p d gm n).undo_stack =
      ((List.range n).map fun i => (iterPlace p d gm i).state).drop (n - 200) := by
  intro n
  induction n with
  | zero => simpa [iterPlace] using h0
  | succ n ihn =>
    have hnfn := iterPlace_unfixed gm p d hnf n
    have hstack : (iterPlace p d gm (n + 1)).undo_stack =
        (if 200 < ((iterPlace p d gm n).undo_stack ++
            [(iterPlace p d gm n).state.clone]).length
          then ((iterPlace p d gm n).undo_stack ++
            [(iterPlace p d gm n).state.clone]).tail
          else (iterPlace p d gm n).undo_stack ++
            [(iterPlace p d gm n).state.clone]) := by
      rw [iterPlace]
      simp [placeCmd, hnfn, Game.push_undo]
    rw [SudokuState.clone_eq] at hstack
    rw [ihn] at hstack
    have hsnaps : (List.range (n + 1)).map
          (fun i => (iterPlace p d gm i).state) =
        ((List.range n).map fun i => (iterPlace p d gm i).state) ++
          [(iterPlace p d gm n).state] := by
      rw [List.range_succ, List.map_append]
      rfl
    have hlenmap :
        ((List.range n).map fun i => (iterPlace p d gm i).state).length = n := by
      simp
    have happ : ((List.range n).map fun i =>
          (iterPlace p d gm i).state).drop (n - 200) ++
            [(iterPlace p d gm n).state] =
        (((List.range n).map fun i => (iterPlace p d gm i).state) ++
            [(iterPlace p d gm n).state]).drop (n - 200) :=
      (List.drop_append_of_le_length (by rw [hlenmap]; omega)).symm
    rw [hstack, hsnaps, happ]
    have hlen2 : ((((List.range n).map fun i => (iterPlace p d gm i).state) ++
          [(iterPlace p d gm n).state]).drop (n - 200)).length =
        n + 1 - (n - 200) := by
      simp
    by_cases hn : n < 200
    · rw [if_neg (by rw [hlen2]; omega)]
      congr 1
      omega
    · rw [if_pos (by rw [hlen2]; omega), List.tail_drop]
      congr 1
      omega

/-- **C9.** The undo history is bounded by 200: each successful place
pushes one snapshot and the oldest is evicted past 200, so after `n`
places the stack holds `min n 200` snapshots; in particular 205 places
leave exactly the last 200 snapshots (the oldest 5 evicted); and undoing
with an empty history is a no-op, not an error. -/
theorem C9_undo_bound (gm : Game) (p : Pos) (d : Nat) (h1 : 1 ≤ d)
    (h9 : d ≤ 9) (h0 : gm.undo_stack = [])
    (hnf : (gm.state.grid p).fixed = false) :
    (∀ n, (iterPlace p d gm n).undo_stack.length = min n 200) ∧
      (iterPlace p d gm 205).undo_stack.length = 200 ∧
      (iterPlace p d gm 205).undo_stack =
        ((List.range 205).map fun i => (iterPlace p d gm i).state).drop 5 ∧
      gm.undo = gm := by
  have hlen : ∀ n, (iterPlace p d gm n).undo_stack.length = min n 200 := by
    intro n
    rw [iterPlace_stack gm p d h0 hnf n]
    simp
    omega
  refine ⟨hlen, ?_, ?_, ?_⟩
  · rw [hlen 205]
    rfl
  · have h := iterPlace_stack gm p d h0 hnf 205
    norm_num at h
    exact h
  · unfold Game.undo
    rw [h0]
    rfl

/-- Witness for C9 at a concrete fresh session, cell, and digit. -/
theorem C9_witness :
    (1 ≤ 5 ∧ 5 ≤ 9 ∧ sampleGame.undo_stack = [] ∧
        (sampleGame.state.grid (0, 0)).fixed = false) ∧
      ((∀ n, (iterPlace (0, 0) 5 sampleGame n).undo_stack.length = min n 200) ∧
        (iterPlace (0, 0) 5 sampleGame 205).undo_stack.length = 200 ∧
        (iterPlace (0, 0) 5 sampleGame 205).undo_stack =
          ((List.range 205).map fun i =>
            (iterPlace (0, 0) 5 sampleGame i).state).drop 5 ∧
        sampleGame.undo = sampleGame) :=
  ⟨⟨by omega, by omega, rfl, rfl⟩,
    C9_undo_bound sampleGame (0, 0) 5 (by omega) (by omega) rfl rfl⟩

/-- **C10.** Whenever `solve` returns `False` — in either mode, for any
sample stream — the grid it hands back equals the grid it was given:
every digit placed during the failed search was reset to 0. -/
theorem C10_solve_false_restores (g : Grid) (fill : Bool)
    (st : Nat → List Nat) (k : Nat)
    (hfail : (solve g fill st k).1 = false) :
    (solve g fill st k).2.1 = g :=
  solveF_restore fill st k (zeroCount_lt_82 g) hfail

/-- A concrete unsolvable grid: row 0 is `1..8,_` and a 9 sits in column 8,
so cell `(0,8)` has no legal digit and `solve` fails at once. -/
def gBad : Grid := fun p =>
  if p.1 = 0 ∧ (p.2 : Nat) < 8 then (p.2 : Nat) + 1
  else if p = (1, 8) then 9 else 0

/-- Witness for C10 at a concrete failing grid. -/
theorem C10_witness : (solve gBad).1 = false ∧ (solve gBad).2.1 = gBad :=
  ⟨by decide,
    C10_solve_false_restores gBad false (fun _ => digits19) 0 (by decide)⟩
